import Mathlib

/-!
# ElementView — verification of the tree-state model

Shallow embedding of the XML tree viewer's core (path addressing, the
collapse-state map, bulk expand/collapse operations, toggling, display
helpers) together with proofs of the spec's testable properties.

The source builds per-node path strings as `parentPath ++ "." ++ index`
with decimal child indices (JS template literal `${path}.${i}`), so we
first develop the few facts about decimal numerals that path-uniqueness
rests on: a numeral is a nonempty string of digit characters, and the
numeral function is injective.
-/

namespace ElementView

/-! ## Decimal numerals (`Nat.repr`, the embedding of JS `${i}`) -/

/-- The natural structural recursion computing the decimal digit list of a
number; `Nat.toDigits 10` (hence `Nat.repr`) agrees with it. -/
def decDigits (n : Nat) : List Char :=
  if _h : n < 10 then [Nat.digitChar n]
  else decDigits (n / 10) ++ [Nat.digitChar (n % 10)]
  decreasing_by exact Nat.div_lt_self (by omega) (by omega)

/-! ## The document tree

Embedding of the parsed DOM element as the viewer reads it: a tag name
(`nodeName`), text content (`textContent`, `null` modelled as `none`), and
the ordered list of element children (`children`). The viewer only ever
reads these three members. -/

inductive Element : Type where
  | mk : (nodeName : String) → (textContent : Option String) →
      (children : List Element) → Element

def Element.nodeName : Element → String
  | .mk n _ _ => n

def Element.textContent : Element → Option String
  | .mk _ t _ => t

def Element.children : Element → List Element
  | .mk _ _ cs => cs

/-! ## Path addressing

The source forms a child's path with the template literal
`` `${path}.${i}` `` — the parent's path, the delimiter `'.'`, and the
decimal child index (`Nat.repr` is Lean's decimal rendering of `i`). -/

def childPath (path : String) (i : Nat) : String :=
  path ++ "." ++ Nat.repr i

/-! ## The depth-first traversal

Every map builder in the source (`generateDefaultCollapsedMap`,
`expandAll`'s `traverse`, `collapseAll`'s `traverse`) performs the same
pre-order walk: visit the node at `path`, then each child `i` at
`` `${path}.${i}` ``. `visit` records that walk as the pre-order list of
`(node, path, depth)` triples; `visitFrom cs path depth i` walks the
children `cs` of a node at `path`, the first child having index `i`. -/

mutual

def visit (el : Element) (path : String) (depth : Nat) :
    List (Element × String × Nat) :=
  match el with
  | .mk n t cs => (Element.mk n t cs, path, depth) :: visitFrom cs path depth 0

def visitFrom (cs : List Element) (path : String) (depth : Nat) (i : Nat) :
    List (Element × String × Nat) :=
  match cs with
  | [] => []
  | c :: rest =>
      visit c (childPath path i) (depth + 1) ++ visitFrom rest path depth (i + 1)

end

/-- The paths assigned to the nodes of a loaded document, in visit order. -/
def pathsOf (el : Element) : List String :=
  (visit el "0" 0).map (fun x => x.2.1)

/-! ## Path uniqueness

A path produced below a node at `p` is `p ++ "." ++ j ++ t` for a decimal
child index `j` and a tail `t` that is empty or starts with `'.'`. Since
decimal numerals contain no `'.'`, the index `j` is recoverable from the
string, which separates the subtrees of distinct siblings. -/

/-- Tail of a path below a child: nothing (the child itself) or a further
descent starting with the delimiter. -/
def DotTail (t : List Char) : Prop := t = [] ∨ ∃ r, t = '.' :: r

/-! ## The collapse map (`Record<string, boolean>`)

A JS object with string keys, modelled as its property list in insertion
order. `assign` is the semantics of `map[path] = v` (and of a computed key
in an object spread): an existing key keeps its position and receives the
new value; a new key is appended. `lookup` is property access, `none`
standing for `undefined`. -/

abbrev CollapseMap := List (String × Bool)

def lookup : CollapseMap → String → Option Bool
  | [], _ => none
  | (q, w) :: rest, p => if q = p then some w else lookup rest p

def assign : CollapseMap → String → Bool → CollapseMap
  | [], p, v => [(p, v)]
  | (q, w) :: rest, p, v =>
      if q = p then (q, v) :: rest else (q, w) :: assign rest p v

def keys (m : CollapseMap) : List String := m.map Prod.fst

/-! ## The three map builders

`generateDefaultCollapsedMap`, and the `traverse` closures of `expandAll`
and `collapseAll`, all perform the walk recorded by `visit` starting from
`('0', depth 0)` on an initially empty object, executing `map[path] = v`
at each visited node — with `v = depth > 0`, `false` and `true`
respectively. Each is embedded as the replay (a fold of `assign`) of that
assignment sequence. -/

def generateDefaultCollapsedMap (root : Element) : CollapseMap :=
  (visit root "0" 0).foldl (fun m x => assign m x.2.1 (decide (0 < x.2.2))) []

def expandAllMap (root : Element) : CollapseMap :=
  (visit root "0" 0).foldl (fun m x => assign m x.2.1 false) []

def collapseAllMap (root : Element) : CollapseMap :=
  (visit root "0" 0).foldl (fun m x => assign m x.2.1 true) []

/-! ## Per-node state resolution and toggling -/

/-- Resolution `collapsedMap[path] ?? (depth > 0)` — the collapsed state
of the node at `path`/`depth`. -/
def isCollapsed (m : CollapseMap) (path : String) (depth : Nat) : Bool :=
  (lookup m path).getD (decide (0 < depth))

/-- Toggling, `setCollapsedMap({...collapsedMap, [path]: !collapsed})` —
the new map installed when the header of the node at `path` is clicked. -/
def toggle (m : CollapseMap) (path : String) (collapsed : Bool) : CollapseMap :=
  assign m path (!collapsed)

/-! ## Display helpers

`stripNamespace` and `limitContent` from the source. The JS string
builtins they call (`split`, `includes`, `trim`, `slice`) are embedded at
the character-list level; a character stands for one JS code unit. -/

/-- JS `str.split(":")` for the single-character separator `':'`. -/
def splitOnColon : List Char → List (List Char)
  | [] => [[]]
  | c :: rest =>
    match splitOnColon rest with
    | [] => [[c]]
    | p :: ps => if c = ':' then [] :: p :: ps else (c :: p) :: ps

/-- Display name of a tag:
`tagName.includes(":") ? tagName.split(":")[1] : tagName`.
Indexing at 1 is total here because a string
containing the separator splits into at least two parts; `getD` with a
default records JS indexing. -/
def stripNamespace (tagName : String) : String :=
  if tagName.data.contains ':' then
    ((splitOnColon tagName.data).getD 1 []).asString
  else tagName

/-- JS `String.prototype.trim`: remove leading and trailing whitespace. -/
def jsTrim (s : String) : String :=
  (((s.data.dropWhile Char.isWhitespace).reverse.dropWhile
    Char.isWhitespace).reverse).asString

/-- Length-limited text content: `null`/empty content renders as `""`;
otherwise the content is trimmed and, when longer than 80 characters,
cut to its first 80 characters (`slice(0, 80)`) with `"..."` appended. -/
def limitContent (content : Option String) : String :=
  match content with
  | none => ""
  | some s =>
    if s = "" then ""
    else if 80 < (jsTrim s).length then
      ((jsTrim s).data.take 80).asString ++ "..."
    else jsTrim s

/-! ## Application state

The pieces of component state the claims are about: the loaded document
root (`xmlElement`), the error message (`error`), and the collapse map
(`collapsedMap`). `handleFileOnLoad` embeds the `reader.onload` callback
of `handleFile`, taking the parse outcome as input (`none` when the
parser produced a `parsererror` document): it clears the error, then on
failure clears the element and sets the error message, and on success
installs the new root together with its freshly generated default
collapse map. -/

structure AppState where
  xmlElement : Option Element
  error : Option String
  collapsedMap : CollapseMap

def handleFileOnLoad (s : AppState) (parsed : Option Element) : AppState :=
  match parsed with
  | none =>
      { s with error := some "Not a valid XML", xmlElement := none }
  | some root =>
      { s with
          error := none,
          xmlElement := some root,
          collapsedMap := generateDefaultCollapsedMap root }

/-- Rendering guard `{xmlElement && <XmlView …/>}` — a tree is rendered
exactly when a document element is present. -/
def displaysTree (s : AppState) : Bool :=
  s.xmlElement.isSome

/-! ## Example fixtures

The spec's scenario document `<root><a>1</a><b><c>2</c></b></root>`. -/

def exA : Element := Element.mk "a" (some "1") []

def exC : Element := Element.mk "c" (some "2") []

def exB : Element := Element.mk "b" none [exC]

def exRoot : Element := Element.mk "root" none [exA, exB]

theorem decDigits_of_lt {n : Nat} (h : n < 10) :
    decDigits n = [Nat.digitChar n] := by
  rw [decDigits, dif_pos h]

theorem decDigits_of_ge {n : Nat} (h : ¬ n < 10) :
    decDigits n = decDigits (n / 10) ++ [Nat.digitChar (n % 10)] := by
  rw [decDigits, dif_neg h]

theorem toDigitsCore_eq_decDigits :
    ∀ (fuel n : Nat) (ds : List Char), n < fuel →
      Nat.toDigitsCore 10 fuel n ds = decDigits n ++ ds := by
  intro fuel
  induction fuel with
  | zero => intro n ds h; omega
  | succ f ih =>
    intro n ds h
    show (if n / 10 = 0 then Nat.digitChar (n % 10) :: ds
          else Nat.toDigitsCore 10 f (n / 10) (Nat.digitChar (n % 10) :: ds))
        = decDigits n ++ ds
    by_cases h10 : n < 10
    · have hz : n / 10 = 0 := Nat.div_eq_of_lt h10
      rw [if_pos hz, decDigits_of_lt h10, Nat.mod_eq_of_lt h10]
      rfl
    · have hz : n / 10 ≠ 0 := by
        have : 1 ≤ n / 10 := (Nat.one_le_div_iff (by omega)).mpr (by omega)
        omega
      rw [if_neg hz, ih (n / 10) _ (by omega), decDigits_of_ge h10,
        List.append_assoc]
      rfl

theorem repr_eq_decDigits (n : Nat) : Nat.repr n = (decDigits n).asString := by
  show (Nat.toDigits 10 n).asString = (decDigits n).asString
  rw [Nat.toDigits, toDigitsCore_eq_decDigits (n + 1) n [] (by omega),
    List.append_nil]

theorem digitChar_isDigit {m : Nat} (h : m < 10) :
    (Nat.digitChar m).isDigit = true := by
  interval_cases m <;> decide

theorem digitChar_inj_lt {m k : Nat} (hm : m < 10) (hk : k < 10)
    (h : Nat.digitChar m = Nat.digitChar k) : m = k := by
  interval_cases m <;> interval_cases k <;> simp_all <;> exact absurd h (by decide)

theorem decDigits_isDigit (n : Nat) : ∀ c ∈ decDigits n, c.isDigit = true := by
  induction n using Nat.strong_induction_on with
  | _ n ih =>
    by_cases h : n < 10
    · rw [decDigits_of_lt h]
      intro c hc
      rw [List.mem_singleton] at hc
      subst hc
      exact digitChar_isDigit h
    · rw [decDigits_of_ge h]
      intro c hc
      rcases List.mem_append.mp hc with hc | hc
      · exact ih (n / 10) (Nat.div_lt_self (by omega) (by omega)) c hc
      · rw [List.mem_singleton] at hc
        subst hc
        exact digitChar_isDigit (Nat.mod_lt _ (by omega))

theorem decDigits_ne_nil (n : Nat) : decDigits n ≠ [] := by
  by_cases h : n < 10
  · rw [decDigits_of_lt h]; simp
  · rw [decDigits_of_ge h]; simp

theorem decDigits_inj : ∀ {n k : Nat}, decDigits n = decDigits k → n = k := by
  intro n
  induction n using Nat.strong_induction_on with
  | _ n ih =>
    intro k h
    by_cases hn : n < 10 <;> by_cases hk : k < 10
    · rw [decDigits_of_lt hn, decDigits_of_lt hk] at h
      exact digitChar_inj_lt hn hk (List.singleton_injective h)
    · rw [decDigits_of_lt hn, decDigits_of_ge hk] at h
      have hpos := List.length_pos.mpr (decDigits_ne_nil (k / 10))
      have hlen := congrArg List.length h
      rw [List.length_append, List.length_singleton, List.length_singleton]
        at hlen
      omega
    · rw [decDigits_of_ge hn, decDigits_of_lt hk] at h
      have hpos := List.length_pos.mpr (decDigits_ne_nil (n / 10))
      have hlen := congrArg List.length h
      rw [List.length_append, List.length_singleton, List.length_singleton]
        at hlen
      omega
    · rw [decDigits_of_ge hn, decDigits_of_ge hk] at h
      have hmain := List.append_inj' h (by simp)
      have h1 : n / 10 = k / 10 :=
        ih (n / 10) (Nat.div_lt_self (by omega) (by omega)) hmain.1
      have h2 : n % 10 = k % 10 :=
        digitChar_inj_lt (Nat.mod_lt _ (by omega)) (Nat.mod_lt _ (by omega))
          (List.singleton_injective hmain.2)
      omega

theorem repr_data (n : Nat) : (Nat.repr n).data = decDigits n := by
  rw [repr_eq_decDigits]; rfl

theorem repr_inj {n k : Nat} (h : Nat.repr n = Nat.repr k) : n = k := by
  have h2 := congrArg String.data h
  rw [repr_data, repr_data] at h2
  exact decDigits_inj h2

theorem repr_isDigit (n : Nat) : ∀ c ∈ (Nat.repr n).data, c.isDigit = true := by
  rw [repr_data]; exact decDigits_isDigit n

theorem repr_data_ne_nil (n : Nat) : (Nat.repr n).data ≠ [] := by
  rw [repr_data]; exact decDigits_ne_nil n

/-- Induction over `Element` with the inductive hypothesis available for
every child, matching how all the traversals in the source recurse. -/
theorem Element.ind {P : Element → Prop}
    (h : ∀ n t cs, (∀ c ∈ cs, P c) → P (Element.mk n t cs)) :
    ∀ el, P el
  | Element.mk n t cs => h n t cs (fun c _hc => Element.ind h c)
decreasing_by
  have := List.sizeOf_lt_of_mem _hc
  simp only [Element.mk.sizeOf_spec]
  omega

theorem childPath_data (path : String) (i : Nat) :
    (childPath path i).data = path.data ++ '.' :: (Nat.repr i).data := by
  show (path ++ "." ++ Nat.repr i).data = _
  rw [String.data_append, String.data_append, List.append_assoc]
  rfl

theorem isDigit_ne_dot {c : Char} (h : c.isDigit = true) : c ≠ '.' := by
  intro hc
  subst hc
  exact absurd h (by decide)

/-- A nonempty digit run followed by a dot-tail is uniquely decomposable. -/
theorem digit_seg_inj :
    ∀ (d₁ : List Char) {d₂ r₁ r₂ : List Char},
      (∀ c ∈ d₁, c.isDigit = true) → (∀ c ∈ d₂, c.isDigit = true) →
      d₁ ≠ [] → d₂ ≠ [] → DotTail r₁ → DotTail r₂ →
      d₁ ++ r₁ = d₂ ++ r₂ → d₁ = d₂ ∧ r₁ = r₂ := by
  intro d₁
  induction d₁ with
  | nil => intro d₂ r₁ r₂ _ _ h1 _ _ _ _; exact absurd rfl h1
  | cons a d₁' ih =>
    intro d₂ r₁ r₂ hd₁ hd₂ _ h2 ht₁ ht₂ heq
    cases d₂ with
    | nil => exact absurd rfl h2
    | cons b d₂' =>
      rw [List.cons_append, List.cons_append] at heq
      simp only [List.cons.injEq] at heq
      obtain ⟨hab, htl⟩ := heq
      subst hab
      cases d₁' with
      | nil =>
        cases d₂' with
        | nil =>
          simp only [List.nil_append] at htl
          exact ⟨rfl, htl⟩
        | cons e d₂'' =>
          exfalso
          simp only [List.nil_append, List.cons_append] at htl
          have he : e.isDigit = true := hd₂ e (by simp)
          rcases ht₁ with h | ⟨r, hr⟩
          · rw [h] at htl
            exact List.noConfusion htl
          · rw [hr] at htl
            simp only [List.cons.injEq] at htl
            exact isDigit_ne_dot he htl.1.symm
      | cons a₁ d₁'' =>
        cases d₂' with
        | nil =>
          exfalso
          simp only [List.nil_append, List.cons_append] at htl
          have ha : a₁.isDigit = true := hd₁ a₁ (by simp)
          rcases ht₂ with h | ⟨r, hr⟩
          · rw [h] at htl
            exact List.noConfusion htl
          · rw [hr] at htl
            simp only [List.cons.injEq] at htl
            exact isDigit_ne_dot ha htl.1
        | cons b₁ d₂'' =>
          have hres := @ih (b₁ :: d₂'') r₁ r₂
            (fun c hc => hd₁ c (List.mem_cons_of_mem _ hc))
            (fun c hc => hd₂ c (List.mem_cons_of_mem _ hc))
            (by simp) (by simp) ht₁ ht₂ htl
          exact ⟨by rw [hres.1], hres.2⟩

/-- Cancel the shared `p ++ "."` prefix of two paths below the same node. -/
theorem seg_cancel {p : String} {X Y : List Char}
    (h : p.data ++ '.' :: X = p.data ++ '.' :: Y) : X = Y := by
  have h2 := List.append_cancel_left h
  simpa using h2

/-- Paths from a child-block walk: each is the parent path, the delimiter,
a decimal index `j ≥ i`, and a dot-tail. The first hypothesis is the shape
of paths from full-subtree walks, supplied by `visit_ext` below. -/
theorem visitFrom_shape : ∀ (cs : List Element),
    (∀ c ∈ cs, ∀ (p' : String) (d' : Nat), ∀ x ∈ visit c p' d',
      x.2.1 = p' ∨ ∃ t, x.2.1.data = p'.data ++ '.' :: t) →
    ∀ (p : String) (d i : Nat), ∀ x ∈ visitFrom cs p d i,
      ∃ j t, i ≤ j ∧
        x.2.1.data = p.data ++ '.' :: ((Nat.repr j).data ++ t) ∧ DotTail t := by
  intro cs
  induction cs with
  | nil =>
    intro _ p d i x hx
    rw [visitFrom] at hx
    exact absurd hx (List.not_mem_nil x)
  | cons c rest ih =>
    intro H p d i x hx
    rw [visitFrom] at hx
    rcases List.mem_append.mp hx with hx | hx
    · rcases H c (List.mem_cons_self c rest) (childPath p i) (d + 1) x hx with
        he | ⟨t, ht⟩
      · refine ⟨i, [], Nat.le_refl i, ?_, Or.inl rfl⟩
        rw [he, childPath_data, List.append_nil]
      · refine ⟨i, '.' :: t, Nat.le_refl i, ?_, Or.inr ⟨t, rfl⟩⟩
        rw [ht, childPath_data]
        simp
    · obtain ⟨j, t, hj, hshape, htail⟩ :=
        ih (fun c' hc' => H c' (List.mem_cons_of_mem _ hc')) p d (i + 1) x hx
      exact ⟨j, t, by omega, hshape, htail⟩

/-- Every path produced inside a subtree rooted at `p` is `p` itself or
extends `p` by a `'.'`-led suffix. -/
theorem visit_ext :
    ∀ el (p : String) (d : Nat), ∀ x ∈ visit el p d,
      x.2.1 = p ∨ ∃ t, x.2.1.data = p.data ++ '.' :: t := by
  intro el
  induction el using Element.ind with
  | _ n tc cs IH =>
    intro p d x hx
    rw [visit] at hx
    rcases List.mem_cons.mp hx with hx | hx
    · left; rw [hx]
    · obtain ⟨j, t, -, hshape, -⟩ :=
        visitFrom_shape cs (fun c hc => IH c hc) p d 0 x hx
      exact Or.inr ⟨(Nat.repr j).data ++ t, hshape⟩

/-- The paths of a child-block walk are pairwise distinct, assuming the
same for full-subtree walks (supplied by `visit_nodup`'s induction). -/
theorem visitFrom_nodup : ∀ (cs : List Element),
    (∀ c ∈ cs, ∀ (p' : String) (d' : Nat),
      ((visit c p' d').map (fun x => x.2.1)).Nodup) →
    ∀ (p : String) (d i : Nat),
      ((visitFrom cs p d i).map (fun x => x.2.1)).Nodup := by
  intro cs
  induction cs with
  | nil => intro _ p d i; simp [visitFrom]
  | cons c rest ih =>
    intro H p d i
    rw [visitFrom, List.map_append]
    refine List.Nodup.append (H c (List.mem_cons_self c rest) _ _)
      (ih (fun c' hc' => H c' (List.mem_cons_of_mem _ hc')) p d (i + 1)) ?_
    intro q hqA hqB
    obtain ⟨x, hx, hxq⟩ := List.mem_map.mp hqA
    obtain ⟨y, hy, hyq⟩ := List.mem_map.mp hqB
    obtain ⟨tA, hshapeA, hdotA⟩ :
        ∃ tA, x.2.1.data = p.data ++ '.' :: ((Nat.repr i).data ++ tA) ∧
          DotTail tA := by
      rcases visit_ext c (childPath p i) (d + 1) x hx with he | ⟨t₀, ht₀⟩
      · exact ⟨[], by rw [he, childPath_data, List.append_nil], Or.inl rfl⟩
      · refine ⟨'.' :: t₀, ?_, Or.inr ⟨t₀, rfl⟩⟩
        rw [ht₀, childPath_data]
        simp
    obtain ⟨j, tB, hj, hshapeB, hdotB⟩ :=
      visitFrom_shape rest (fun c' hc' => visit_ext c') p d (i + 1) y hy
    rw [hyq, ← hxq] at hshapeB
    have hXY := seg_cancel (hshapeA.symm.trans hshapeB)
    have hdig := digit_seg_inj _ (repr_isDigit i) (repr_isDigit j)
      (repr_data_ne_nil i) (repr_data_ne_nil j) hdotA hdotB hXY
    have hij : i = j := decDigits_inj (by rw [← repr_data, ← repr_data, hdig.1])
    omega

/-- Pairwise distinctness of the paths of a full depth-first walk. -/
theorem visit_nodup : ∀ el (p : String) (d : Nat),
    ((visit el p d).map (fun x => x.2.1)).Nodup := by
  intro el
  induction el using Element.ind with
  | _ n tc cs IH =>
    intro p d
    rw [visit, List.map_cons, List.nodup_cons]
    constructor
    · intro hmem
      obtain ⟨x, hx, hxp⟩ := List.mem_map.mp hmem
      obtain ⟨j, t, -, hshape, -⟩ :=
        visitFrom_shape cs (fun c hc => visit_ext c) p d 0 x hx
      rw [hxp] at hshape
      have hlen := congrArg List.length hshape
      simp at hlen
    · exact visitFrom_nodup cs IH p d 0

theorem lookup_assign_self : ∀ (m : CollapseMap) (p : String) (v : Bool),
    lookup (assign m p v) p = some v := by
  intro m p v
  induction m with
  | nil => simp [assign, lookup]
  | cons e rest ih =>
    obtain ⟨q, w⟩ := e
    by_cases h : q = p
    · simp [assign, lookup, h]
    · simp [assign, lookup, h, ih]

theorem lookup_assign_ne : ∀ (m : CollapseMap) (p : String) (v : Bool)
    (q : String), q ≠ p → lookup (assign m p v) q = lookup m q := by
  intro m p v q hqp
  have hpq : ¬ p = q := fun h => hqp h.symm
  induction m with
  | nil => simp [assign, lookup, hpq]
  | cons e rest ih =>
    obtain ⟨r, w⟩ := e
    simp only [assign]
    by_cases h : r = p
    · rw [if_pos h]
      have hrq : ¬ r = q := by rw [h]; exact hpq
      simp only [lookup, if_neg hrq]
    · rw [if_neg h]
      simp only [lookup]
      by_cases h2 : r = q
      · rw [if_pos h2, if_pos h2]
      · rw [if_neg h2, if_neg h2, ih]

theorem assign_of_not_mem : ∀ (m : CollapseMap) (p : String) (v : Bool),
    p ∉ keys m → assign m p v = m ++ [(p, v)] := by
  intro m p v hp
  induction m with
  | nil => rfl
  | cons e rest ih =>
    obtain ⟨q, w⟩ := e
    simp only [keys, List.map_cons, List.mem_cons] at hp
    push_neg at hp
    have hqp : ¬ q = p := fun h => hp.1 h.symm
    simp only [assign, if_neg hqp, List.cons_append, List.cons.injEq, true_and]
    exact ih (by simpa [keys] using hp.2)

theorem lookup_of_mem_nodup : ∀ (m : CollapseMap) (p : String) (v : Bool),
    (p, v) ∈ m → (keys m).Nodup → lookup m p = some v := by
  intro m p v hmem hnd
  induction m with
  | nil => exact absurd hmem (List.not_mem_nil _)
  | cons e rest ih =>
    obtain ⟨q, w⟩ := e
    simp only [keys, List.map_cons, List.nodup_cons] at hnd
    rcases List.mem_cons.mp hmem with he | hmem'
    · obtain ⟨hq, hv⟩ := Prod.mk.inj he.symm
      simp [lookup, hq, hv]
    · have hqp : q ≠ p := by
        intro h
        subst h
        exact hnd.1 (by simpa [keys] using List.mem_map_of_mem Prod.fst hmem')
      simp [lookup, hqp, ih hmem' (by simpa [keys] using hnd.2)]

/-- Replaying assignments whose keys are fresh and pairwise distinct just
appends the corresponding entries. -/
theorem foldl_assign_fresh (f : Element × String × Nat → Bool) :
    ∀ (l : List (Element × String × Nat)) (m : CollapseMap),
      (∀ x ∈ l, x.2.1 ∉ keys m) → ((l.map fun x => x.2.1).Nodup) →
      l.foldl (fun m x => assign m x.2.1 (f x)) m
        = m ++ l.map (fun x => (x.2.1, f x)) := by
  intro l
  induction l with
  | nil => intro m _ _; simp
  | cons x rest ih =>
    intro m hfresh hnodup
    simp only [List.map_cons, List.nodup_cons] at hnodup
    rw [List.foldl_cons,
      assign_of_not_mem m _ _ (hfresh x (List.mem_cons_self x rest)),
      ih (m ++ [(x.2.1, f x)]) ?fresh hnodup.2]
    · simp
    case fresh =>
      intro y hy
      simp only [keys, List.map_append, List.mem_append]
      push_neg
      refine ⟨by simpa [keys] using hfresh y (List.mem_cons_of_mem x hy), ?_⟩
      simp only [List.map_cons, List.map_nil, List.mem_singleton]
      intro h
      exact hnodup.1 (h ▸ List.mem_map_of_mem (fun x => x.2.1) hy)

theorem generateDefaultCollapsedMap_entries (root : Element) :
    generateDefaultCollapsedMap root
      = (visit root "0" 0).map (fun x => (x.2.1, decide (0 < x.2.2))) := by
  rw [generateDefaultCollapsedMap,
    foldl_assign_fresh _ _ [] (by simp [keys]) (visit_nodup root "0" 0),
    List.nil_append]

theorem expandAllMap_entries (root : Element) :
    expandAllMap root = (visit root "0" 0).map (fun x => (x.2.1, false)) := by
  rw [expandAllMap,
    foldl_assign_fresh _ _ [] (by simp [keys]) (visit_nodup root "0" 0),
    List.nil_append]

theorem collapseAllMap_entries (root : Element) :
    collapseAllMap root = (visit root "0" 0).map (fun x => (x.2.1, true)) := by
  rw [collapseAllMap,
    foldl_assign_fresh _ _ [] (by simp [keys]) (visit_nodup root "0" 0),
    List.nil_append]

theorem assign_assign_restore : ∀ (m : CollapseMap) (p : String) (v w : Bool),
    lookup m p = some v → assign (assign m p w) p v = m := by
  intro m p v w h
  induction m with
  | nil => simp [lookup] at h
  | cons e rest ih =>
    obtain ⟨q, u⟩ := e
    by_cases hq : q = p
    · subst hq
      have hv : u = v := by
        simp [lookup] at h
        exact h
      simp [assign, hv]
    · simp only [lookup, if_neg hq] at h
      simp [assign, if_neg hq, ih h]

/-! ## Claims -/

/-- C1: for every loaded document tree, the depth-first enumeration of all
nodes yields pairwise-distinct path strings, and a child's path is a
proper prefix-extension of its parent's path — the parent's path, the
delimiter `'.'`, and the child's decimal index. -/
theorem path_uniqueness_and_parent_extension :
    ∀ el : Element, (pathsOf el).Nodup ∧
    ∀ (p : String) (i : Nat),
      (childPath p i).data = p.data ++ '.' :: (Nat.repr i).data ∧
      p.data <+: (childPath p i).data ∧ p ≠ childPath p i := by
  intro el
  refine ⟨visit_nodup el "0" 0, ?_⟩
  intro p i
  refine ⟨childPath_data p i, ⟨'.' :: (Nat.repr i).data, (childPath_data p i).symm⟩, ?_⟩
  intro h
  have hlen : p.data.length = (childPath p i).data.length := by rw [← h]
  rw [childPath_data] at hlen
  simp at hlen

/-- C10: the three map builders run the same depth-first walk, so the maps
they produce have the same keys in the same order — the path of every node
of the tree, leaves included. -/
theorem builders_same_keys :
    ∀ el : Element,
      keys (generateDefaultCollapsedMap el) = pathsOf el ∧
      keys (expandAllMap el) = pathsOf el ∧
      keys (collapseAllMap el) = pathsOf el := by
  intro el
  refine ⟨?_, ?_, ?_⟩
  · rw [generateDefaultCollapsedMap_entries]
    simp [keys, pathsOf, List.map_map, Function.comp]
  · rw [expandAllMap_entries]
    simp [keys, pathsOf, List.map_map, Function.comp]
  · rw [collapseAllMap_entries]
    simp [keys, pathsOf, List.map_map, Function.comp]

/-- C3: the default collapse map built at load time maps the root's path
`"0"` to `false` and the path of every non-root internal node to `true`
(every visited node's entry is its predicate `depth > 0`). -/
theorem default_map_spec :
    ∀ el : Element,
      lookup (generateDefaultCollapsedMap el) "0" = some false ∧
      ∀ (e : Element) (p : String) (d : Nat), (e, p, d) ∈ visit el "0" 0 →
        0 < d → e.children ≠ [] →
        lookup (generateDefaultCollapsedMap el) p = some true := by
  intro el
  rw [generateDefaultCollapsedMap_entries]
  constructor
  · rcases el with ⟨n, t, cs⟩
    simp only [visit, List.map_cons, lookup, if_pos rfl]
    rfl
  · intro e p d hmem hd _
    have hkeys :
        (keys ((visit el "0" 0).map
          (fun x => (x.2.1, decide (0 < x.2.2))))).Nodup := by
      simp only [keys, List.map_map]
      have := visit_nodup el "0" 0
      simpa [Function.comp] using this
    have hin := List.mem_map_of_mem
      (fun x : Element × String × Nat => (x.2.1, decide (0 < x.2.2))) hmem
    have := lookup_of_mem_nodup _ _ _ hin hkeys
    rwa [decide_eq_true hd] at this

/-- C3 witness: in the scenario tree, the non-root internal node `b` at
path `"0.1"`, depth 1, defaults to collapsed. -/
theorem default_map_spec_witness :
    lookup (generateDefaultCollapsedMap exRoot) "0.1" = some true :=
  (default_map_spec exRoot).2 exB "0.1" 1
    (List.Mem.tail _ (List.Mem.tail _ (List.Mem.head _)))
    (by decide) (by simp [exB, Element.children])

/-- C2 counterexample: in the scenario tree, the node `a` at path `"0.0"`
is a leaf, yet "Collapse all" gives it a map entry — the traversal assigns
an entry to every visited node, leaves included, so leaf paths do appear
as keys of the resulting map. -/
theorem setAll_leaf_key_counterexample :
    exA.children = [] ∧ lookup (collapseAllMap exRoot) "0.0" = some true ∧
    lookup (expandAllMap exRoot) "0.0" = some false := by
  refine ⟨rfl, ?_, ?_⟩ <;> decide

/-- C2 (amended): "Collapse all" maps the path of every node — internal
nodes and leaves alike — to `true`, "Expand all" maps every node's path to
`false`, and the key list of either map is exactly the list of all nodes'
paths (so leaf nodes do appear as keys, with the same constant value). -/
theorem setAll_spec :
    ∀ el : Element,
      (∀ p ∈ pathsOf el, lookup (collapseAllMap el) p = some true) ∧
      (∀ p ∈ pathsOf el, lookup (expandAllMap el) p = some false) ∧
      keys (collapseAllMap el) = pathsOf el ∧
      keys (expandAllMap el) = pathsOf el := by
  intro el
  have hnd := visit_nodup el "0" 0
  refine ⟨?_, ?_, ?_, ?_⟩
  · intro p hp
    rw [collapseAllMap_entries]
    obtain ⟨x, hx, hxp⟩ := List.mem_map.mp hp
    have hin := List.mem_map_of_mem
      (fun x : Element × String × Nat => (x.2.1, true)) hx
    have hin' : (p, true) ∈ (visit el "0" 0).map
        (fun x : Element × String × Nat => (x.2.1, true)) := by
      simpa [hxp] using hin
    refine lookup_of_mem_nodup _ _ _ hin' ?_
    simp only [keys, List.map_map]
    simpa [Function.comp] using hnd
  · intro p hp
    rw [expandAllMap_entries]
    obtain ⟨x, hx, hxp⟩ := List.mem_map.mp hp
    have hin := List.mem_map_of_mem
      (fun x : Element × String × Nat => (x.2.1, false)) hx
    have hin' : (p, false) ∈ (visit el "0" 0).map
        (fun x : Element × String × Nat => (x.2.1, false)) := by
      simpa [hxp] using hin
    refine lookup_of_mem_nodup _ _ _ hin' ?_
    simp only [keys, List.map_map]
    simpa [Function.comp] using hnd
  · rw [collapseAllMap_entries]
    simp [keys, pathsOf, List.map_map, Function.comp]
  · rw [expandAllMap_entries]
    simp [keys, pathsOf, List.map_map, Function.comp]

/-- C2 witness: in the scenario tree, the internal node `b`'s path `"0.1"`
is a key of both bulk maps, collapsed after "Collapse all" and expanded
after "Expand all". -/
theorem setAll_spec_witness :
    lookup (collapseAllMap exRoot) "0.1" = some true ∧
    lookup (expandAllMap exRoot) "0.1" = some false :=
  ⟨(setAll_spec exRoot).1 "0.1" (by decide),
   (setAll_spec exRoot).2.1 "0.1" (by decide)⟩

/-- C4: toggling produces a map in which `path` maps to the negation of
the current value while every other key keeps its prior value; the input
map is untouched (`toggle` builds a new object by spreading the old one).
-/
theorem toggle_frame :
    ∀ (m : CollapseMap) (p : String) (v : Bool),
      lookup (toggle m p v) p = some (!v) ∧
      ∀ q : String, q ≠ p → lookup (toggle m p v) q = lookup m q := by
  intro m p v
  exact ⟨lookup_assign_self m p (!v), fun q hq => lookup_assign_ne m p (!v) q hq⟩

/-- C4 witness: toggling `"0.1"` in a two-key map flips that key and
leaves `"0"` untouched. -/
theorem toggle_frame_witness :
    lookup (toggle [("0", false), ("0.1", true)] "0.1" true) "0.1"
      = some false ∧
    lookup (toggle [("0", false), ("0.1", true)] "0.1" true) "0"
      = lookup [("0", false), ("0.1", true)] "0" :=
  ⟨(toggle_frame [("0", false), ("0.1", true)] "0.1" true).1,
   (toggle_frame [("0", false), ("0.1", true)] "0.1" true).2 "0" (by decide)⟩

/-- C5 counterexample: double-toggling is not the identity on a map that
has no entry for the path — the first toggle adds the key, so the result
is `{"0": false}`, not the original empty map. -/
theorem toggle_involution_counterexample :
    toggle (toggle [] "0" false) "0" (!false) = [("0", false)] ∧
    toggle (toggle [] "0" false) "0" (!false) ≠ ([] : CollapseMap) := by
  refine ⟨?_, ?_⟩ <;> decide

/-- C5 (amended): double-toggling restores the map when `v` is the value
the map actually holds at `path` — `toggle(toggle(m, p, v), p, !v) == m`
whenever `m[p] == v` (as at every call site, where `v` is the resolved
current value of an existing key). -/
theorem toggle_involution :
    ∀ (m : CollapseMap) (p : String) (v : Bool),
      lookup m p = some v → toggle (toggle m p v) p (!v) = m := by
  intro m p v h
  show assign (assign m p (!v)) p (!(!v)) = m
  rw [Bool.not_not]
  exact assign_assign_restore m p v (!v) h

/-- C5 witness: on `{"0": true}`, toggling `"0"` twice restores the map.
-/
theorem toggle_involution_witness :
    toggle (toggle [("0", true)] "0" true) "0" (!true) = [("0", true)] :=
  toggle_involution [("0", true)] "0" true (by decide)

theorem splitOnColon_ne_nil : ∀ l : List Char, splitOnColon l ≠ [] := by
  intro l
  cases l with
  | nil => simp [splitOnColon]
  | cons c rest =>
    simp only [splitOnColon]
    cases h : splitOnColon rest with
    | nil => simp
    | cons p ps => by_cases hc : c = ':' <;> simp [hc]

theorem splitOnColon_no_colon : ∀ l : List Char, (∀ c ∈ l, c ≠ ':') →
    splitOnColon l = [l] := by
  intro l
  induction l with
  | nil => intro _; rfl
  | cons c rest ih =>
    intro h
    have hrest := ih (fun c' hc' => h c' (List.mem_cons_of_mem _ hc'))
    simp only [splitOnColon, hrest]
    rw [if_neg (h c (List.mem_cons_self c rest))]

theorem splitOnColon_append : ∀ (s t : List Char), (∀ c ∈ s, c ≠ ':') →
    splitOnColon (s ++ ':' :: t) = s :: splitOnColon t := by
  intro s t
  induction s with
  | nil =>
    intro _
    simp only [List.nil_append, splitOnColon]
    cases h : splitOnColon t with
    | nil => exact absurd h (splitOnColon_ne_nil t)
    | cons p ps => simp
  | cons a s' ih =>
    intro h
    have hs' := ih (fun c hc => h c (List.mem_cons_of_mem _ hc))
    simp only [List.cons_append, splitOnColon, List.append_eq, hs']
    rw [if_neg (h a (List.mem_cons_self a s'))]

/-- C6 counterexample: a tag name with two delimiters displays as the part
between the first and second `':'`, not as everything after the first —
`"a:b:c"` displays as `"b"`, not `"b:c"`. -/
theorem stripNamespace_counterexample :
    stripNamespace "a:b:c" = "b" ∧ stripNamespace "a:b:c" ≠ "b:c" := by
  refine ⟨?_, ?_⟩ <;> decide

/-- C6 (amended): a tag name without `':'` is shown unchanged; a tag name
with exactly one `':'` is displayed as the substring after it; a tag name
with several `':'` is displayed as its second `':'`-separated component —
`"ns:Item"` displays as `"Item"`, `"Item"` as `"Item"`, and `"a:b:c"` as
`"b"`. -/
theorem stripNamespace_spec :
    (∀ s : String, ¬ ':' ∈ s.data → stripNamespace s = s) ∧
    (∀ s t : String, ¬ ':' ∈ s.data → ¬ ':' ∈ t.data →
      stripNamespace (s ++ ":" ++ t) = t) ∧
    stripNamespace "ns:Item" = "Item" ∧ stripNamespace "Item" = "Item" ∧
    stripNamespace "a:b:c" = "b" := by
  refine ⟨?_, ?_, by decide, by decide, by decide⟩
  · intro s h
    rw [stripNamespace, if_neg (by simp [List.contains, h])]
  · intro s t hs ht
    have hdata : (s ++ ":" ++ t).data = s.data ++ ':' :: t.data := by
      rw [String.data_append, String.data_append, List.append_assoc]
      rfl
    rw [stripNamespace, if_pos (by rw [hdata]; simp [List.contains])]
    rw [hdata, splitOnColon_append s.data t.data (fun c hc h => hs (h ▸ hc)),
      splitOnColon_no_colon t.data (fun c hc h => ht (h ▸ hc))]
    rfl

/-- C6 witness: the general clauses applied to `"Item"` and to
`"ns" ++ ":" ++ "Item"`. -/
theorem stripNamespace_spec_witness :
    stripNamespace "Item" = "Item" ∧
    stripNamespace ("ns" ++ ":" ++ "Item") = "Item" :=
  ⟨stripNamespace_spec.1 "Item" (by decide),
   stripNamespace_spec.2.1 "ns" "Item" (by decide) (by decide)⟩

/-- C7 counterexample: a failed parse does not discard the previous
CollapseMap — starting from a state holding `{"0": true}`, the map after
the failure still holds the old entry instead of being cleared. -/
theorem parse_failure_counterexample :
    (handleFileOnLoad ⟨some exRoot, none, [("0", true)]⟩ none).collapsedMap
      = [("0", true)] ∧
    (handleFileOnLoad ⟨some exRoot, none, [("0", true)]⟩ none).collapsedMap
      ≠ ([] : CollapseMap) :=
  ⟨rfl, by decide⟩

/-- C7 (amended): on a failed parse the previous Document Node is
discarded, the message "Not a valid XML" is shown, and no tree is
displayed; the previous CollapseMap, however, is retained in state
(unobservable, since no tree is rendered) and is only replaced — wholesale,
with the fresh default map — by the next successful load. -/
theorem parse_failure_spec :
    ∀ s : AppState,
      (handleFileOnLoad s none).xmlElement = none ∧
      (handleFileOnLoad s none).error = some "Not a valid XML" ∧
      displaysTree (handleFileOnLoad s none) = false ∧
      (handleFileOnLoad s none).collapsedMap = s.collapsedMap ∧
      ∀ root : Element,
        (handleFileOnLoad s (some root)).collapsedMap
          = generateDefaultCollapsedMap root ∧
        (handleFileOnLoad s (some root)).error = none := by
  intro s
  exact ⟨rfl, rfl, rfl, rfl, fun root => ⟨rfl, rfl⟩⟩

/-- C8: the resolved collapsed state is `map[path]` when that key is
present, and the depth-based default `depth > 0` (expanded only at depth
0) when it is absent. -/
theorem isCollapsed_spec :
    ∀ (m : CollapseMap) (p : String) (d : Nat),
      (∀ b : Bool, lookup m p = some b → isCollapsed m p d = b) ∧
      (lookup m p = none → isCollapsed m p d = decide (0 < d)) := by
  intro m p d
  constructor
  · intro b hb
    rw [isCollapsed, hb]
    rfl
  · intro hn
    rw [isCollapsed, hn]
    rfl

/-- C8 witness: a present key wins over the default; an absent key falls
back to `depth > 0`. -/
theorem isCollapsed_spec_witness :
    isCollapsed [("0", true)] "0" 0 = true ∧
    isCollapsed [("0", true)] "0.1" 3 = true ∧
    isCollapsed [("0", true)] "0.1" 0 = false :=
  ⟨(isCollapsed_spec [("0", true)] "0" 0).1 true (by decide),
   (isCollapsed_spec [("0", true)] "0.1" 3).2 (by decide),
   (isCollapsed_spec [("0", true)] "0.1" 0).2 (by decide)⟩

/-- C9: trimmed content of exactly 80 characters renders unchanged;
trimmed content exceeding 80 characters renders as its first 80
characters plus the ellipsis marker; `null`, empty and whitespace-only
content render as the empty string. -/
theorem limitContent_spec :
    limitContent none = "" ∧ limitContent (some "") = "" ∧
    ∀ s : String,
      (jsTrim s = "" → limitContent (some s) = "") ∧
      ((jsTrim s).length = 80 → limitContent (some s) = jsTrim s) ∧
      (80 < (jsTrim s).length →
        limitContent (some s) = ((jsTrim s).data.take 80).asString ++ "...") := by
  refine ⟨rfl, rfl, ?_⟩
  intro s
  by_cases hs : s = ""
  · subst hs
    exact ⟨fun _ => rfl, fun h80 => absurd h80 (by decide),
      fun h80 => absurd h80 (by decide)⟩
  · refine ⟨?_, ?_, ?_⟩
    · intro h
      simp only [limitContent, if_neg hs]
      rw [h]
      rfl
    · intro h80
      simp only [limitContent, if_neg hs]
      rw [if_neg (by omega)]
    · intro h80
      simp only [limitContent, if_neg hs]
      rw [if_pos h80]

/-- C9 witness: whitespace-only content renders empty; 80 `'x'`s render
unchanged; 81 `'x'`s render as 80 of them plus the marker. -/
theorem limitContent_spec_witness :
    limitContent (some "  ") = "" ∧
    limitContent (some (String.mk (List.replicate 80 'x')))
      = jsTrim (String.mk (List.replicate 80 'x')) ∧
    limitContent (some (String.mk (List.replicate 81 'x')))
      = ((jsTrim (String.mk (List.replicate 81 'x'))).data.take 80).asString
        ++ "..." :=
  ⟨(limitContent_spec.2.2 "  ").1 (by decide),
   (limitContent_spec.2.2 (String.mk (List.replicate 80 'x'))).2.1 (by decide),
   (limitContent_spec.2.2 (String.mk (List.replicate 81 'x'))).2.2 (by decide)⟩

end ElementView
